import Mathlib

/-!
Shallow embedding of the AtomHash repository: a fixed-capacity, insert-only
hash table with two variants (separate chaining in crate `atom_hash`,
open addressing with a permuted index space in crate `atomic_hashmap`),
plus the `xorshift` pseudo-random generator that seeds the permutation.

Machine integers (`usize`) are modelled as `Nat` reduced modulo `2 ^ 64`
exactly where the Rust arithmetic can wrap (left shifts in the xorshift
step).  Raw pointers and `AtomicPtr` buckets are modelled by
`Option (Nat × V)` slots (open addressing) and by `List (Nat × V)` chains
(chaining); in the sequential executions the claims quantify over, a CAS
on an empty slot always succeeds, so each insert is a pure state
transformer.  Heap allocations that the open-addressing variant neither
stores in a bucket nor frees are tracked in an explicit `leaked` ledger.
-/

/-- Bit width modulus for `usize` arithmetic (64-bit targets). -/
def USIZE : Nat := 2 ^ 64

/-- State of the xorshift generator (src/xorshift/src/lib.rs, `struct Rng`). -/
structure Rng where
  state : Nat
  iter : Nat
deriving DecidableEq, Repr

/-- `Rng::new(seed)`; the Rust seed is a `usize`, hence the reduction. -/
def Rng.new (seed : Nat) : Rng :=
  { state := seed % USIZE, iter := 0 }

/-- `Rng::rand`: the xorshift step `s ^= s << 13; s ^= s >> 17; s ^= s << 5`,
with wrapping left shifts, returning the updated generator and the new state. -/
def Rng.rand (r : Rng) : Rng × Nat :=
  let s1 := (r.state ^^^ (r.state <<< 13)) % USIZE
  let s2 := s1 ^^^ (s1 >>> 17)
  let s3 := (s2 ^^^ (s2 <<< 5)) % USIZE
  ({ state := s3, iter := r.iter + 1 }, s3)

/-- `Rng::get_random(top)`: `self.rand() % top`.  Rust's `%` by zero panics,
which is modelled by returning `none`; for `top > 0` the call returns the
stepped generator and the bounded draw. -/
def Rng.get_random (r : Rng) (top : Nat) : Option (Rng × Nat) :=
  if top = 0 then none
  else
    let p := r.rand
    some (p.1, p.2 % top)

/-- Result of `HashMap::insert` in either crate: `Ok(&v)`,
`Err(ExistentEntry(&v))` or `Err(HashMapFull)`. -/
inductive InsertResult (V : Type) where
  | ok (v : V)
  | existent (v : V)
  | full
deriving DecidableEq, Repr

namespace AtomicHashmap

/-- `slice.swap(i, j)` on an array; identity when an index is out of bounds
(the Rust call would panic there, but `scramble` only uses in-range indices). -/
def swapNat (a : Array Nat) (i j : Nat) : Array Nat :=
  if h : i < a.size ∧ j < a.size then a.swap ⟨i, h.1⟩ ⟨j, h.2⟩ else a

/-- Loop of `HashMap::scramble` (src/atomic_hashmap/src/lib.rs): for `i` in
`(1..slice.len()).rev()`, draw `j = rng.get_random(i)` and swap `i` with `j`.
The argument is the current loop index `i`; `get_random i` with `i ≥ 1`
never returns `none`. -/
def scrambleAux (rng : Rng) (a : Array Nat) : Nat → Rng × Array Nat
  | 0 => (rng, a)
  | m + 1 =>
    match rng.get_random (m + 1) with
    | none => (rng, a)
    | some (r1, j) => scrambleAux r1 (swapNat a (m + 1) j) m

/-- `HashMap::scramble(rng, slice)`: the loop above starting at `len - 1`. -/
def scramble (rng : Rng) (a : Array Nat) : Rng × Array Nat :=
  scrambleAux rng a (a.size - 1)

/-- Modelled from the spec (for comparison with `scramble`): a Fisher–Yates
shuffle as the spec describes it, "for `i` from `N-1` down to `1`, draw
`j = next_bounded(i+1)` and swap elements `i` and `j`".  The argument is the
current loop index `i`; the draw is bounded by `i + 1`, not `i`. -/
def fisherYatesAux (rng : Rng) (a : Array Nat) : Nat → Rng × Array Nat
  | 0 => (rng, a)
  | m + 1 =>
    match rng.get_random (m + 2) with
    | none => (rng, a)
    | some (r1, j) => fisherYatesAux r1 (swapNat a (m + 1) j) m

/-- Modelled from the spec: Fisher–Yates over the whole slice. -/
def fisherYates (rng : Rng) (a : Array Nat) : Rng × Array Nat :=
  fisherYatesAux rng a (a.size - 1)

/-- Open-addressing table (src/atomic_hashmap/src/lib.rs, `struct HashMap`).
A bucket is `none` for a null `AtomicPtr` and `some (key, val)` for a
published `Entry`.  `leaked` counts `Entry` allocations made by `insert`
that are neither stored in a bucket nor freed (the source has no
`Box::from_raw` on its error paths, and `Drop` only frees bucket-reachable
entries). -/
structure HashMap (V : Type) (N : Nat) where
  permutation : Array Nat
  entries : Nat
  buckets : Array (Option (Nat × V))
  leaked : Nat
deriving DecidableEq

/-- `HashMap::new_with_seed`: scramble the identity table `0, …, N-1` and
start with zeroed buckets. -/
def HashMap.new_with_seed (V : Type) (N : Nat) (seed : Nat) : HashMap V N :=
  { permutation := (scramble (Rng.new seed) (Array.range N)).2
    entries := 0
    buckets := Array.mkArray N none
    leaked := 0 }

/-- `HashMap::get_idx`: `self.permutation[key & (N - 1)]`. -/
def HashMap.get_idx {V : Type} {N : Nat} (m : HashMap V N) (key : Nat) : Nat :=
  m.permutation.getD (key &&& (N - 1)) 0

/-- Loop of `HashMap::lookup`: inspect the bucket at `idx`; null means
absent, a key match returns the value, otherwise advance to
`(idx + 1) & (N - 1)` and stop with `none` on wrapping back to `start`.
The fuel argument bounds the number of loop iterations; `N` suffices
because the loop advances `idx` each round and stops on wrap. -/
def lookupAux {V : Type} (buckets : Array (Option (Nat × V))) (N key start : Nat) :
    Nat → Nat → Option V
  | _, 0 => none
  | idx, fuel + 1 =>
    match buckets.getD idx none with
    | none => none
    | some (k, v) =>
      if key = k then some v
      else
        let idx2 := (idx + 1) &&& (N - 1)
        if idx2 = start then none
        else lookupAux buckets N key start idx2 fuel

/-- `HashMap::lookup`. -/
def HashMap.lookup {V : Type} {N : Nat} (m : HashMap V N) (key : Nat) : Option V :=
  let start := m.get_idx key
  lookupAux m.buckets N key start start N

/-- Inner probe of `HashMap::insert` after the first increment: while the
bucket at `idx` is occupied, advance and fail with `HashMapFull` (`none`)
as soon as the live entry count equals `N`; at the first empty bucket the
(sequentially always successful) CAS stores the new entry.  The fuel bounds
the iterations; sequentially `N` suffices, and exhaustion (only reachable
from states no sequential execution produces) is reported as `none`. -/
def probeLoop {V : Type} (buckets : Array (Option (Nat × V))) (ent N key : Nat) (v : V) :
    Nat → Nat → Option (Array (Option (Nat × V)))
  | _, 0 => none
  | idx, fuel + 1 =>
    match buckets.getD idx none with
    | some _ =>
      let idx2 := (idx + 1) &&& (N - 1)
      if ent = N then none
      else probeLoop buckets ent N key v idx2 fuel
    | none => some (buckets.setD idx (some (key, v)))

/-- `HashMap::insert` (open addressing), sequential semantics: CAS on the
starting bucket succeeds iff it is null; on failure the occupant's key is
compared, and only on mismatch does linear probing start with the
wrap-to-start check after the first increment. -/
def HashMap.insert {V : Type} {N : Nat} (m : HashMap V N) (key : Nat) (v : V) :
    HashMap V N × InsertResult V :=
  let start := m.get_idx key
  match m.buckets.getD start none with
  | none =>
    ({ m with buckets := m.buckets.setD start (some (key, v)), entries := m.entries + 1 },
      .ok v)
  | some (k0, v0) =>
    if k0 = key then
      ({ m with leaked := m.leaked + 1 }, .existent v0)
    else
      let idx1 := (start + 1) &&& (N - 1)
      if idx1 = start then ({ m with leaked := m.leaked + 1 }, .full)
      else
        match probeLoop m.buckets m.entries N key v idx1 N with
        | some b' =>
          ({ m with buckets := b', entries := m.entries + 1 }, .ok v)
        | none => ({ m with leaked := m.leaked + 1 }, .full)

/-- Sequential driver: perform the inserts of `ops` in order, keeping the
state regardless of each result. -/
def HashMap.runInserts {V : Type} {N : Nat} (m : HashMap V N) :
    List (Nat × V) → HashMap V N
  | [] => m
  | (k, v) :: rest => HashMap.runInserts (m.insert k v).1 rest

/-- Sequential driver predicate: every insert of `ops`, performed in order,
returns `Ok`. -/
def HashMap.allOk {V : Type} {N : Nat} (m : HashMap V N) : List (Nat × V) → Bool
  | [] => true
  | (k, v) :: rest =>
    match m.insert k v with
    | (m', .ok _) => HashMap.allOk m' rest
    | _ => false

/-- Bucket contents along the probe sequence of `key`: the slot probed `j`
steps after the starting index. -/
def HashMap.slotAt {V : Type} {N : Nat} (m : HashMap V N) (key j : Nat) :
    Option (Nat × V) :=
  m.buckets.getD ((m.get_idx key + j) % N) none

end AtomicHashmap

namespace AtomHash

/-- First value stored under `key` while walking a chain from its head;
this is exactly the traversal `HashMap::lookup` performs on a bucket. -/
def findEntry {V : Type} : List (Nat × V) → Nat → Option V
  | [], _ => none
  | (k, v) :: rest, key => if key = k then some v else findEntry rest key

/-- Chaining table (src/atom_hash/src/lib.rs, `struct HashMap`).  A bucket
holds its chain as a list, head first, links in publication order. -/
structure HashMap (V : Type) (N : Nat) where
  entries : Nat
  collisions : Nat
  buckets : Array (List (Nat × V))
deriving DecidableEq

/-- `HashMap::new`: zero-initialized bucket array. -/
def HashMap.new (V : Type) (N : Nat) : HashMap V N :=
  { entries := 0, collisions := 0, buckets := Array.mkArray N [] }

/-- `HashMap::get_idx`: `key & (N - 1)`. -/
def HashMap.get_idx {V : Type} {N : Nat} (_m : HashMap V N) (key : Nat) : Nat :=
  key &&& (N - 1)

/-- `HashMap::lookup`: head check and chain walk both return the first
entry of the bucket's chain whose key matches. -/
def HashMap.lookup {V : Type} {N : Nat} (m : HashMap V N) (key : Nat) : Option V :=
  findEntry (m.buckets.getD (m.get_idx key) []) key

/-- `HashMap::insert` (chaining), sequential semantics: CAS the bucket head
when it is null, otherwise check the head key, then walk the chain checking
each key, and append the new entry at the tail on success; only a tail
append increments `collision_count`.  On a key match the freshly allocated
entry is dropped and the occupant's value returned. -/
def HashMap.insert {V : Type} {N : Nat} (m : HashMap V N) (key : Nat) (v : V) :
    HashMap V N × InsertResult V :=
  let idx := m.get_idx key
  match m.buckets.getD idx [] with
  | [] =>
    ({ m with buckets := m.buckets.setD idx [(key, v)], entries := m.entries + 1 },
      .ok v)
  | (k0, v0) :: rest =>
    if k0 = key then (m, .existent v0)
    else
      match findEntry rest key with
      | some v' => (m, .existent v')
      | none =>
        ({ m with
            buckets := m.buckets.setD idx ((k0, v0) :: (rest ++ [(key, v)]))
            entries := m.entries + 1
            collisions := m.collisions + 1 },
          .ok v)

/-- Sequential driver: perform the inserts of `ops` in order. -/
def HashMap.runInserts {V : Type} {N : Nat} (m : HashMap V N) :
    List (Nat × V) → HashMap V N
  | [] => m
  | (k, v) :: rest => HashMap.runInserts (m.insert k v).1 rest

/-- Sequential driver predicate: every insert of `ops` returns `Ok`. -/
def HashMap.allOk {V : Type} {N : Nat} (m : HashMap V N) : List (Nat × V) → Bool
  | [] => true
  | (k, v) :: rest =>
    match m.insert k v with
    | (m', .ok _) => HashMap.allOk m' rest
    | _ => false

/-- Count, over a sequential run of `ops`, of the insert calls that append
a new entry past a non-null bucket head: the starting bucket is non-empty
and does not yet contain the key. -/
def appendCollisionCount {V : Type} {N : Nat} (m : HashMap V N) :
    List (Nat × V) → Nat
  | [] => 0
  | (k, v) :: rest =>
    let chain := m.buckets.getD (m.get_idx k) []
    (if !chain.isEmpty && (findEntry chain k).isNone then 1 else 0) +
      appendCollisionCount (m.insert k v).1 rest

/-- Modelled from the claim's words (for comparison with the code's
counter): count of insert calls "whose starting bucket was already occupied
by a different key", i.e. whose bucket head exists and carries another key,
whatever the call's outcome. -/
def claimedCollisionCount {V : Type} {N : Nat} (m : HashMap V N) :
    List (Nat × V) → Nat
  | [] => 0
  | (k, v) :: rest =>
    (match m.buckets.getD (m.get_idx k) [] with
      | [] => 0
      | (k0, _) :: _ => if k0 = k then 0 else 1) +
      claimedCollisionCount (m.insert k v).1 rest

end AtomHash

/-! Generic helper lemmas about `Array.getD`, `Array.setD`, masking and
modular probe arithmetic. -/

theorem arrayGetD_def {α : Type} (a : Array α) (i : Nat) (d : α) :
    a.getD i d = if h : i < a.size then a[i] else d := rfl

theorem arrayGetD_eq_getElem {α : Type} (a : Array α) (i : Nat) (d : α)
    (h : i < a.size) : a.getD i d = a[i] := by
  rw [arrayGetD_def, dif_pos h]

theorem arraySetD_eq_set {α : Type} (a : Array α) (i : Nat) (x : α)
    (h : i < a.size) : a.setD i x = a.set ⟨i, h⟩ x := by
  unfold Array.setD
  rw [dif_pos h]

theorem arrayGetD_setD_self {α : Type} (a : Array α) (i : Nat) (x d : α)
    (h : i < a.size) : (a.setD i x).getD i d = x := by
  rw [arraySetD_eq_set a i x h,
    arrayGetD_eq_getElem _ _ _ (by simpa using h), Array.get_set a ⟨i, h⟩ i h x]
  simp

theorem arrayGetD_setD_ne {α : Type} (a : Array α) (i j : Nat) (x d : α)
    (hne : i ≠ j) : (a.setD i x).getD j d = a.getD j d := by
  by_cases hi : i < a.size
  · rw [arraySetD_eq_set a i x hi]
    by_cases hj : j < a.size
    · rw [arrayGetD_eq_getElem _ _ _ (by simpa using hj),
        arrayGetD_eq_getElem _ _ _ hj, Array.get_set _ _ _ hj, if_neg hne]
    · rw [arrayGetD_def, dif_neg (by simpa using hj), arrayGetD_def, dif_neg hj]
  · unfold Array.setD
    rw [dif_neg hi]

theorem listSet_getElem_self {α : Type} (l : List α) (n : Nat) (h : n < l.length) :
    l.set n l[n] = l := by
  apply List.ext_getElem (by simp)
  intro i h1 h2
  rw [List.getElem_set]
  split
  · next heq => subst heq; rfl
  · rfl

theorem and_mask_lt (x kk : Nat) : x &&& (2 ^ kk - 1) < 2 ^ kk := by
  rw [Nat.and_pow_two_sub_one_eq_mod]
  exact Nat.mod_lt _ (Nat.two_pow_pos kk)

theorem pos_ne_start {N start j : Nat} (hstart : start < N) (hj0 : 0 < j)
    (hjN : j < N) : (start + j) % N ≠ start := by
  rcases lt_or_ge (start + j) N with h | h
  · rw [Nat.mod_eq_of_lt h]
    omega
  · rw [Nat.mod_eq_sub_mod h, Nat.mod_eq_of_lt (by omega)]
    omega

theorem pos_step {kk start j : Nat} :
    ((start + j) % 2 ^ kk + 1) &&& (2 ^ kk - 1) = (start + (j + 1)) % 2 ^ kk := by
  rw [Nat.and_pow_two_sub_one_eq_mod, Nat.mod_add_mod, Nat.add_assoc]

theorem pos_wrap {N start : Nat} (hstart : start < N) :
    (start + N) % N = start := by
  rw [Nat.add_mod_right, Nat.mod_eq_of_lt hstart]

theorem exists_probe_index {N start s : Nat} (hstart : start < N) (hs : s < N) :
    ∃ i, i < N ∧ (start + i) % N = s := by
  rcases le_or_lt start s with h | h
  · refine ⟨s - start, by omega, ?_⟩
    have he : start + (s - start) = s := by omega
    rw [he, Nat.mod_eq_of_lt hs]
  · refine ⟨N + s - start, by omega, ?_⟩
    have he : start + (N + s - start) = N + s := by omega
    rw [he, Nat.add_mod_left, Nat.mod_eq_of_lt hs]

theorem listSet_set_perm (l : List Nat) (i j : Nat) (hi : i < l.length)
    (hj : j < l.length) : ((l.set i l[j]).set j l[i]).Perm l := by
  rcases eq_or_ne i j with rfl | hij
  · rw [List.set_set, listSet_getElem_self]
  · rw [List.perm_iff_count]
    intro b
    have hj' : j < (l.set i l[j]).length := by simpa using hj
    rw [List.count_set _ _ _ _ hj', List.count_set _ _ _ _ hi]
    have hgj : (l.set i l[j])[j] = l[j] := by
      rw [List.getElem_set, if_neg hij]
    rw [hgj]
    have h1 : l[i] ∈ l := List.getElem_mem hi
    have h2 : l[j] ∈ l := List.getElem_mem hj
    by_cases e1 : l[i] = b <;> by_cases e2 : l[j] = b
    · have hc : 0 < l.count b := List.count_pos_iff.mpr (e1 ▸ h1)
      simp only [e1, e2, beq_self_eq_true, if_true]
      omega
    · have hc : 0 < l.count b := List.count_pos_iff.mpr (e1 ▸ h1)
      simp only [beq_iff_eq, e1, e2, if_true, if_false]
      omega
    · have hc : 0 < l.count b := List.count_pos_iff.mpr (e2 ▸ h2)
      simp only [beq_iff_eq, e1, e2, if_true, if_false]
      omega
    · simp only [beq_iff_eq, e1, e2, if_false]
      omega

/-! Permutation facts about `scramble` (used by C8 and by the well-formedness
of freshly constructed open-addressing tables). -/

namespace AtomicHashmap

theorem swapNat_perm (a : Array Nat) (i j : Nat) :
    (swapNat a i j).toList.Perm a.toList := by
  unfold swapNat
  split
  · next h =>
    rw [Array.toList_swap]
    have hi : i < a.toList.length := by simpa [Array.length_toList] using h.1
    have hj : j < a.toList.length := by simpa [Array.length_toList] using h.2
    have hgi : a.get ⟨i, h.1⟩ = a.toList[i] := by
      rw [Array.get_eq_getElem, Array.getElem_toList]
    have hgj : a.get ⟨j, h.2⟩ = a.toList[j] := by
      rw [Array.get_eq_getElem, Array.getElem_toList]
    rw [hgi, hgj]
    exact listSet_set_perm a.toList i j hi hj
  · exact List.Perm.refl _

theorem scrambleAux_perm (m : Nat) (rng : Rng) (a : Array Nat) :
    ((scrambleAux rng a m).2).toList.Perm a.toList := by
  induction m generalizing rng a with
  | zero => exact List.Perm.refl _
  | succ m ih =>
    unfold scrambleAux
    rcases hg : rng.get_random (m + 1) with _ | ⟨r1, j⟩
    · exact List.Perm.refl _
    · exact (ih r1 (swapNat a (m + 1) j)).trans (swapNat_perm a (m + 1) j)

theorem scramble_range_perm (seed N : Nat) :
    ((scramble (Rng.new seed) (Array.range N)).2).toList.Perm (List.range N) := by
  have h := scrambleAux_perm ((Array.range N).size - 1) (Rng.new seed) (Array.range N)
  rw [Array.toList_range] at h
  exact h

theorem scramble_range_size (seed N : Nat) :
    ((scramble (Rng.new seed) (Array.range N)).2).size = N := by
  have h := (scramble_range_perm seed N).length_eq
  rw [Array.length_toList, List.length_range] at h
  exact h

theorem scramble_range_getD_lt (seed N i : Nat) (hN : 0 < N) :
    ((scramble (Rng.new seed) (Array.range N)).2).getD i 0 < N := by
  by_cases hi : i < ((scramble (Rng.new seed) (Array.range N)).2).size
  · rw [arrayGetD_eq_getElem _ _ _ hi]
    have hm : ((scramble (Rng.new seed) (Array.range N)).2)[i] ∈
        ((scramble (Rng.new seed) (Array.range N)).2).toList := by
      rw [← Array.getElem_toList (by simpa [Array.length_toList] using hi)]
      exact List.getElem_mem _
    exact List.mem_range.mp ((scramble_range_perm seed N).mem_iff.mp hm)
  · rw [arrayGetD_def, dif_neg hi]
    exact hN

end AtomicHashmap

/-! Chain-walking facts for the chaining variant. -/

namespace AtomHash

theorem findEntry_cons {V : Type} (k : Nat) (w : V) (tl : List (Nat × V)) (key : Nat) :
    findEntry ((k, w) :: tl) key = if key = k then some w else findEntry tl key := rfl

theorem findEntry_append_some {V : Type} (l l2 : List (Nat × V)) (key : Nat) (v : V)
    (h : findEntry l key = some v) : findEntry (l ++ l2) key = some v := by
  induction l with
  | nil => exact absurd h (by simp [findEntry])
  | cons hd tl ih =>
    obtain ⟨k, w⟩ := hd
    rw [findEntry_cons] at h
    rw [List.cons_append, findEntry_cons]
    by_cases hk : key = k
    · rw [if_pos hk] at h
      rw [if_pos hk]
      exact h
    · rw [if_neg hk] at h
      rw [if_neg hk]
      exact ih h

theorem findEntry_append_none {V : Type} (l l2 : List (Nat × V)) (key : Nat)
    (h : findEntry l key = none) : findEntry (l ++ l2) key = findEntry l2 key := by
  induction l with
  | nil => rw [List.nil_append]
  | cons hd tl ih =>
    obtain ⟨k, w⟩ := hd
    rw [findEntry_cons] at h
    rw [List.cons_append, findEntry_cons]
    by_cases hk : key = k
    · rw [if_pos hk] at h
      exact absurd h (by simp)
    · rw [if_neg hk] at h
      rw [if_neg hk]
      exact ih h

/-- Case analysis of one sequential chaining insert: either the key is not
in the starting bucket's chain and the new entry is appended at the tail
(bumping `entries`, and `collisions` exactly when the bucket head was
occupied), or the first chain entry with that key is returned as
`ExistentEntry` and the state is untouched. -/
theorem insert_cases {V : Type} {N : Nat} (m : HashMap V N) (k : Nat) (v : V) :
    (findEntry (m.buckets.getD (m.get_idx k) []) k = none ∧
      (m.insert k v).1 = { m with
        buckets := m.buckets.setD (m.get_idx k)
          ((m.buckets.getD (m.get_idx k) []) ++ [(k, v)])
        entries := m.entries + 1
        collisions := m.collisions +
          (if (m.buckets.getD (m.get_idx k) []).isEmpty then 0 else 1) } ∧
      (m.insert k v).2 = .ok v) ∨
    (∃ v', findEntry (m.buckets.getD (m.get_idx k) []) k = some v' ∧
      (m.insert k v).1 = m ∧ (m.insert k v).2 = .existent v') := by
  rcases hch : m.buckets.getD (m.get_idx k) [] with _ | ⟨⟨k0, v0⟩, rest⟩
  · left
    refine ⟨rfl, ?_, ?_⟩ <;>
      simp [HashMap.insert, hch]
  · by_cases hk0 : k0 = k
    · right
      refine ⟨v0, ?_, ?_, ?_⟩
      · rw [findEntry_cons, if_pos hk0.symm]
      · simp [HashMap.insert, hch, hk0]
      · simp [HashMap.insert, hch, hk0]
    · rcases hf : findEntry rest k with _ | v'
      · left
        refine ⟨?_, ?_, ?_⟩
        · rw [findEntry_cons, if_neg (fun h => hk0 h.symm)]
          exact hf
        · simp [HashMap.insert, hch, hk0, hf]
        · simp [HashMap.insert, hch, hk0, hf]
      · right
        refine ⟨v', ?_, ?_, ?_⟩
        · rw [findEntry_cons, if_neg (fun h => hk0 h.symm)]
          exact hf
        · simp [HashMap.insert, hch, hk0, hf]
        · simp [HashMap.insert, hch, hk0, hf]

end AtomHash

/-! Open-addressing structural layer: occupancy counting, well-formedness
of reachable states, and branch equations of `insert`. -/

namespace AtomicHashmap

theorem lookupAux_succ {V : Type} (buckets : Array (Option (Nat × V)))
    (N key start idx fuel : Nat) :
    lookupAux buckets N key start idx (fuel + 1) =
      match buckets.getD idx none with
      | none => none
      | some (k, v) =>
        if key = k then some v
        else if ((idx + 1) &&& (N - 1)) = start then none
        else lookupAux buckets N key start ((idx + 1) &&& (N - 1)) fuel := rfl

theorem probeLoop_succ {V : Type} (buckets : Array (Option (Nat × V)))
    (ent N key : Nat) (v : V) (idx fuel : Nat) :
    probeLoop buckets ent N key v idx (fuel + 1) =
      match buckets.getD idx none with
      | some _ =>
        if ent = N then none
        else probeLoop buckets ent N key v ((idx + 1) &&& (N - 1)) fuel
      | none => some (buckets.setD idx (some (key, v))) := rfl

/-- Number of non-null buckets. -/
def occupied {α : Type} (b : Array (Option α)) : Nat :=
  b.toList.countP (fun o => o.isSome)

theorem occupied_le_size {α : Type} (b : Array (Option α)) : occupied b ≤ b.size := by
  unfold occupied
  rw [← Array.length_toList]
  exact List.countP_le_length _

theorem occupied_setD_some {α : Type} (b : Array (Option α)) (i : Nat) (x : α)
    (hi : i < b.size) (hnone : b.getD i none = none) :
    occupied (b.setD i (some x)) = occupied b + 1 := by
  have hl : i < b.toList.length := by simpa [Array.length_toList] using hi
  have hbi : b.toList[i] = (none : Option α) := by
    rw [Array.getElem_toList hi]
    rw [arrayGetD_eq_getElem _ _ _ hi] at hnone
    exact hnone
  unfold occupied
  rw [arraySetD_eq_set _ _ _ hi, Array.toList_set, List.countP_set _ _ _ _ hl, hbi]
  simp

theorem getD_ne_none_of_full {α : Type} (b : Array (Option α))
    (h : occupied b = b.size) (i : Nat) (hi : i < b.size) :
    b.getD i none ≠ none := by
  have hall : ∀ o ∈ b.toList, o.isSome = true := by
    apply List.countP_eq_length.mp
    rw [Array.length_toList]
    exact h
  intro hcontra
  have hl : i < b.toList.length := by simpa [Array.length_toList] using hi
  have hsome := hall (b.toList[i]) (List.getElem_mem hl)
  rw [Array.getElem_toList hi] at hsome
  rw [arrayGetD_eq_getElem _ _ _ hi] at hcontra
  rw [hcontra] at hsome
  simp at hsome

theorem exists_none_of_occupied_lt {α : Type} (b : Array (Option α))
    (h : occupied b < b.size) : ∃ s, s < b.size ∧ b.getD s none = none := by
  by_contra hc
  push_neg at hc
  have hall : ∀ o ∈ b.toList, o.isSome = true := by
    intro o ho
    obtain ⟨i, hl, rfl⟩ := List.mem_iff_getElem.mp ho
    have hi : i < b.size := by simpa [Array.length_toList] using hl
    have hne := hc i hi
    rw [arrayGetD_eq_getElem _ _ _ hi] at hne
    rw [Array.getElem_toList hi]
    cases hbo : b[i] with
    | none => exact absurd hbo hne
    | some _ => rfl
  have hlen := List.countP_eq_length.mpr hall
  rw [Array.length_toList] at hlen
  have heq : occupied b = b.size := hlen
  omega

/-- Well-formedness, established at construction and preserved by `insert`:
the bucket array has size `N`, the permutation sends every index below `N`
(so `get_idx` always lands in range), and the live entry counter equals the
number of occupied buckets. -/
def wf {V : Type} {N : Nat} (m : HashMap V N) : Prop :=
  m.buckets.size = N ∧ (∀ i, m.permutation.getD i 0 < N) ∧
    m.entries = occupied m.buckets

theorem wf_new (V : Type) (N seed : Nat) (hN : 0 < N) :
    wf (HashMap.new_with_seed V N seed) := by
  refine ⟨by simp [HashMap.new_with_seed], ?_, ?_⟩
  · intro i
    exact scramble_range_getD_lt seed N i hN
  · show 0 = occupied (Array.mkArray N none)
    unfold occupied
    rw [Array.toList_mkArray]
    have hz : ∀ o ∈ List.replicate N (none : Option (Nat × V)), ¬ o.isSome = true := by
      intro o ho
      rw [List.eq_of_mem_replicate ho]
      simp
    rw [List.countP_eq_zero.mpr hz]

theorem insert_eq_start_none {V : Type} {N : Nat} (m : HashMap V N) (key : Nat) (v : V)
    (h : m.buckets.getD (m.get_idx key) none = none) :
    m.insert key v =
      ({ m with buckets := m.buckets.setD (m.get_idx key) (some (key, v)),
                entries := m.entries + 1 }, .ok v) := by
  simp [HashMap.insert, h]

theorem insert_eq_head_match {V : Type} {N : Nat} (m : HashMap V N) (key : Nat) (v : V)
    (k0 : Nat) (v0 : V)
    (h : m.buckets.getD (m.get_idx key) none = some (k0, v0)) (hk : k0 = key) :
    m.insert key v = ({ m with leaked := m.leaked + 1 }, .existent v0) := by
  simp [HashMap.insert, h, hk]

theorem insert_eq_wrap {V : Type} {N : Nat} (m : HashMap V N) (key : Nat) (v : V)
    (k0 : Nat) (v0 : V)
    (h : m.buckets.getD (m.get_idx key) none = some (k0, v0)) (hk : k0 ≠ key)
    (hw : ((m.get_idx key + 1) &&& (N - 1)) = m.get_idx key) :
    m.insert key v = ({ m with leaked := m.leaked + 1 }, .full) := by
  simp [HashMap.insert, h, hk, hw]

theorem insert_eq_probe {V : Type} {N : Nat} (m : HashMap V N) (key : Nat) (v : V)
    (k0 : Nat) (v0 : V)
    (h : m.buckets.getD (m.get_idx key) none = some (k0, v0)) (hk : k0 ≠ key)
    (hw : ((m.get_idx key + 1) &&& (N - 1)) ≠ m.get_idx key) :
    m.insert key v =
      match probeLoop m.buckets m.entries N key v ((m.get_idx key + 1) &&& (N - 1)) N with
      | some b' => ({ m with buckets := b', entries := m.entries + 1 }, .ok v)
      | none => ({ m with leaked := m.leaked + 1 }, .full) := by
  simp [HashMap.insert, h, hk, hw]

theorem insert_permutation {V : Type} {N : Nat} (m : HashMap V N) (key : Nat) (v : V) :
    (m.insert key v).1.permutation = m.permutation := by
  rcases h : m.buckets.getD (m.get_idx key) none with _ | ⟨k0, v0⟩
  · rw [insert_eq_start_none m key v h]
  · by_cases hk : k0 = key
    · rw [insert_eq_head_match m key v k0 v0 h hk]
    · by_cases hw : ((m.get_idx key + 1) &&& (N - 1)) = m.get_idx key
      · rw [insert_eq_wrap m key v k0 v0 h hk hw]
      · rw [insert_eq_probe m key v k0 v0 h hk hw]
        rcases hp : probeLoop m.buckets m.entries N key v
            ((m.get_idx key + 1) &&& (N - 1)) N with _ | b' <;> rfl

theorem probeLoop_some {V : Type} {kk : Nat} (b : Array (Option (Nat × V)))
    (ent key : Nat) (v : V) :
    ∀ fuel idx b', idx < 2 ^ kk →
      probeLoop b ent (2 ^ kk) key v idx fuel = some b' →
      ∃ s, s < 2 ^ kk ∧ b.getD s none = none ∧ b' = b.setD s (some (key, v)) := by
  intro fuel
  induction fuel with
  | zero =>
    intro idx b' _ h
    exact absurd h (by simp [probeLoop])
  | succ fuel ih =>
    intro idx b' hidx h
    rw [probeLoop_succ] at h
    rcases hb : b.getD idx none with _ | p
    · simp only [hb] at h
      exact ⟨idx, hidx, hb, by injection h with h'; exact h'.symm⟩
    · simp only [hb] at h
      by_cases he : ent = 2 ^ kk
      · rw [if_pos he] at h
        exact absurd h (by simp)
      · rw [if_neg he] at h
        exact ih _ b' (and_mask_lt _ _) h

theorem insert_state {V : Type} {N kk : Nat} (m : HashMap V N) (key : Nat) (v : V)
    (hN : N = 2 ^ kk) (hstart : m.get_idx key < N) :
    (∃ s, s < N ∧ m.buckets.getD s none = none ∧
      (m.insert key v).1.buckets = m.buckets.setD s (some (key, v)) ∧
      (m.insert key v).1.entries = m.entries + 1 ∧
      (m.insert key v).2 = .ok v) ∨
    ((m.insert key v).1.buckets = m.buckets ∧
      (m.insert key v).1.entries = m.entries ∧
      ∀ w, (m.insert key v).2 ≠ .ok w) := by
  subst hN
  rcases h : m.buckets.getD (m.get_idx key) none with _ | ⟨k0, v0⟩
  · left
    exact ⟨m.get_idx key, hstart, h,
      by rw [insert_eq_start_none m key v h],
      by rw [insert_eq_start_none m key v h],
      by rw [insert_eq_start_none m key v h]⟩
  · by_cases hk : k0 = key
    · right
      rw [insert_eq_head_match m key v k0 v0 h hk]
      exact ⟨rfl, rfl, by simp⟩
    · by_cases hw : ((m.get_idx key + 1) &&& (2 ^ kk - 1)) = m.get_idx key
      · right
        rw [insert_eq_wrap m key v k0 v0 h hk hw]
        exact ⟨rfl, rfl, by simp⟩
      · rw [insert_eq_probe m key v k0 v0 h hk hw]
        rcases hp : probeLoop m.buckets m.entries (2 ^ kk) key v
            ((m.get_idx key + 1) &&& (2 ^ kk - 1)) (2 ^ kk) with _ | b'
        · right
          exact ⟨rfl, rfl, by simp⟩
        · left
          obtain ⟨s, hs, hnone, hb⟩ :=
            probeLoop_some m.buckets m.entries key v (2 ^ kk)
              ((m.get_idx key + 1) &&& (2 ^ kk - 1)) b' (and_mask_lt _ _) hp
          exact ⟨s, hs, hnone, by rw [hb], rfl, rfl⟩

theorem wf_insert {V : Type} {N kk : Nat} (m : HashMap V N) (key : Nat) (v : V)
    (hN : N = 2 ^ kk) (hwf : wf m) : wf (m.insert key v).1 := by
  have hstart : m.get_idx key < N := hwf.2.1 _
  rcases insert_state m key v hN hstart with
    ⟨s, hs, hnone, hb, he, _⟩ | ⟨hb, he, _⟩
  · refine ⟨?_, ?_, ?_⟩
    · rw [hb, Array.size_setD, hwf.1]
    · intro i
      rw [insert_permutation]
      exact hwf.2.1 i
    · rw [hb, he, occupied_setD_some _ _ _ (by rw [hwf.1]; exact hs) hnone, hwf.2.2]
  · refine ⟨by rw [hb, hwf.1], ?_, by rw [hb, he, hwf.2.2]⟩
    intro i
    rw [insert_permutation]
    exact hwf.2.1 i

theorem runInserts_wf {V : Type} {N kk : Nat} (hN : N = 2 ^ kk) :
    ∀ (ops : List (Nat × V)) (m : HashMap V N), wf m →
      wf (HashMap.runInserts m ops) := by
  intro ops
  induction ops with
  | nil => exact fun m h => h
  | cons hd rest ih =>
    intro m h
    obtain ⟨k, v⟩ := hd
    exact ih _ (wf_insert m k v hN h)

theorem runInserts_permutation {V : Type} {N : Nat} :
    ∀ (ops : List (Nat × V)) (m : HashMap V N),
      (HashMap.runInserts m ops).permutation = m.permutation := by
  intro ops
  induction ops with
  | nil => exact fun m => rfl
  | cons hd rest ih =>
    intro m
    obtain ⟨k, v⟩ := hd
    rw [HashMap.runInserts, ih, insert_permutation]

end AtomicHashmap

/-! Characterization of the probe sequences of `lookup` and of the insert
probe, in terms of absolute probe offsets from the starting index. -/

namespace AtomicHashmap

theorem lookupAux_hit {V : Type} (b : Array (Option (Nat × V))) (kk key start : Nat)
    (hstart : start < 2 ^ kk) :
    ∀ d j fuel v, j + d < 2 ^ kk → 2 ^ kk - j ≤ fuel →
      b.getD ((start + (j + d)) % 2 ^ kk) none = some (key, v) →
      (∀ i, j ≤ i → i < j + d → ∃ p : Nat × V,
        b.getD ((start + i) % 2 ^ kk) none = some p ∧ p.1 ≠ key) →
      lookupAux b (2 ^ kk) key start ((start + j) % 2 ^ kk) fuel = some v := by
  intro d
  induction d with
  | zero =>
    intro j fuel v hlt hfuel hhit _
    obtain ⟨f, rfl⟩ : ∃ f, fuel = f + 1 := ⟨fuel - 1, by omega⟩
    rw [Nat.add_zero] at hhit
    rw [lookupAux_succ]
    simp [hhit]
  | succ d ih =>
    intro j fuel v hlt hfuel hhit hocc
    obtain ⟨f, rfl⟩ : ∃ f, fuel = f + 1 := ⟨fuel - 1, by omega⟩
    obtain ⟨⟨p1, p2⟩, hp, hpk⟩ := hocc j le_rfl (by omega)
    rw [lookupAux_succ]
    simp only [hp]
    rw [if_neg (fun hkey => hpk hkey.symm), pos_step,
      if_neg (pos_ne_start hstart (by omega) (by omega))]
    have hhit' : b.getD ((start + (j + 1 + d)) % 2 ^ kk) none = some (key, v) := by
      rw [show j + 1 + d = j + (d + 1) from by omega]
      exact hhit
    exact ih (j + 1) f v (by omega) (by omega) hhit'
      (fun i hi1 hi2 => hocc i (by omega) (by omega))

theorem lookupAux_null {V : Type} (b : Array (Option (Nat × V))) (kk key start : Nat)
    (hstart : start < 2 ^ kk) :
    ∀ d j fuel, j + d < 2 ^ kk → 2 ^ kk - j ≤ fuel →
      b.getD ((start + (j + d)) % 2 ^ kk) none = none →
      (∀ i, j ≤ i → i < j + d → ∃ p : Nat × V,
        b.getD ((start + i) % 2 ^ kk) none = some p ∧ p.1 ≠ key) →
      lookupAux b (2 ^ kk) key start ((start + j) % 2 ^ kk) fuel = none := by
  intro d
  induction d with
  | zero =>
    intro j fuel hlt hfuel hnull _
    obtain ⟨f, rfl⟩ : ∃ f, fuel = f + 1 := ⟨fuel - 1, by omega⟩
    rw [Nat.add_zero] at hnull
    rw [lookupAux_succ]
    simp only [hnull]
  | succ d ih =>
    intro j fuel hlt hfuel hnull hocc
    obtain ⟨f, rfl⟩ : ∃ f, fuel = f + 1 := ⟨fuel - 1, by omega⟩
    obtain ⟨⟨p1, p2⟩, hp, hpk⟩ := hocc j le_rfl (by omega)
    rw [lookupAux_succ]
    simp only [hp]
    rw [if_neg (fun hkey => hpk hkey.symm), pos_step,
      if_neg (pos_ne_start hstart (by omega) (by omega))]
    have hnull' : b.getD ((start + (j + 1 + d)) % 2 ^ kk) none = none := by
      rw [show j + 1 + d = j + (d + 1) from by omega]
      exact hnull
    exact ih (j + 1) f (by omega) (by omega) hnull'
      (fun i hi1 hi2 => hocc i (by omega) (by omega))

theorem lookupAux_wrap {V : Type} (b : Array (Option (Nat × V))) (kk key start : Nat)
    (hstart : start < 2 ^ kk) :
    ∀ fuel j, j < 2 ^ kk → 2 ^ kk - j ≤ fuel →
      (∀ i, j ≤ i → i < 2 ^ kk → ∃ p : Nat × V,
        b.getD ((start + i) % 2 ^ kk) none = some p ∧ p.1 ≠ key) →
      lookupAux b (2 ^ kk) key start ((start + j) % 2 ^ kk) fuel = none := by
  intro fuel
  induction fuel with
  | zero =>
    intro j hj hfuel _
    omega
  | succ fuel ih =>
    intro j hj hfuel hocc
    obtain ⟨⟨p1, p2⟩, hp, hpk⟩ := hocc j le_rfl hj
    rw [lookupAux_succ]
    simp only [hp]
    rw [if_neg (fun hkey => hpk hkey.symm), pos_step]
    by_cases hj1 : j + 1 = 2 ^ kk
    · rw [hj1, pos_wrap hstart, if_pos rfl]
    · rw [if_neg (pos_ne_start hstart (by omega) (by omega))]
      exact ih (j + 1) (by omega) (by omega) (fun i h1 h2 => hocc i (by omega) h2)

theorem probeLoop_full {V : Type} {kk : Nat} (b : Array (Option (Nat × V)))
    (ent key : Nat) (v : V) (idx fuel : Nat)
    (hsz : b.size = 2 ^ kk) (hfull : occupied b = 2 ^ kk) (hent : ent = 2 ^ kk)
    (hidx : idx < 2 ^ kk) (hfuel : 0 < fuel) :
    probeLoop b ent (2 ^ kk) key v idx fuel = none := by
  subst hent
  obtain ⟨f, rfl⟩ : ∃ f, fuel = f + 1 := ⟨fuel - 1, by omega⟩
  rw [probeLoop_succ]
  have hne := getD_ne_none_of_full b (by rw [hsz]; exact hfull) idx
    (by rw [hsz]; exact hidx)
  rcases hb : b.getD idx none with _ | p
  · exact absurd hb hne
  · simp [hb]

theorem probeLoop_pos {V : Type} (b : Array (Option (Nat × V)))
    (ent kk key start : Nat) (v : V) (hstart : start < 2 ^ kk) :
    ∀ fuel j b', j < 2 ^ kk → 2 ^ kk - j ≤ fuel →
      (∃ i, j ≤ i ∧ i < 2 ^ kk ∧ b.getD ((start + i) % 2 ^ kk) none = none) →
      probeLoop b ent (2 ^ kk) key v ((start + j) % 2 ^ kk) fuel = some b' →
      ∃ d, j ≤ d ∧ d < 2 ^ kk ∧ b.getD ((start + d) % 2 ^ kk) none = none ∧
        (∀ i, j ≤ i → i < d → b.getD ((start + i) % 2 ^ kk) none ≠ none) ∧
        b' = b.setD ((start + d) % 2 ^ kk) (some (key, v)) := by
  intro fuel
  induction fuel with
  | zero =>
    intro j b' hj hfuel _ _
    omega
  | succ fuel ih =>
    intro j b' hj hfuel hnull hrun
    rw [probeLoop_succ] at hrun
    rcases hb : b.getD ((start + j) % 2 ^ kk) none with _ | p
    · simp only [hb] at hrun
      refine ⟨j, le_rfl, hj, hb, fun i h1 h2 => absurd h2 (by omega), ?_⟩
      injection hrun with h'
      exact h'.symm
    · simp only [hb] at hrun
      by_cases he : ent = 2 ^ kk
      · rw [if_pos he] at hrun
        exact absurd hrun (by simp)
      · rw [if_neg he, pos_step] at hrun
        obtain ⟨i0, hi0a, hi0b, hi0c⟩ := hnull
        have hij : j < i0 := by
          by_contra hge
          have heq : i0 = j := by omega
          rw [heq, hb] at hi0c
          exact Option.noConfusion hi0c
        obtain ⟨d, hd1, hd2, hd3, hd4, hd5⟩ :=
          ih (j + 1) b' (by omega) (by omega) ⟨i0, by omega, hi0b, hi0c⟩ hrun
        refine ⟨d, by omega, hd2, hd3, ?_, hd5⟩
        intro i h1 h2
        rcases Nat.eq_or_lt_of_le h1 with heq | hlt
        · rw [← heq, hb]
          simp
        · exact hd4 i (by omega) h2

end AtomicHashmap

/-! Reachability of stored entries along their probe path, and its
preservation under further sequential inserts. -/

namespace AtomicHashmap

/-- A binding `(key, v)` is reachable: some probe offset `j` holds it, and
every earlier offset is occupied by a different key.  `lookup` then finds
it before any null bucket and before wrapping. -/
def reach {V : Type} {N : Nat} (m : HashMap V N) (key : Nat) (v : V) : Prop :=
  ∃ j, j < N ∧ m.slotAt key j = some (key, v) ∧
    ∀ i, i < j → ∃ p : Nat × V, m.slotAt key i = some p ∧ p.1 ≠ key

/-- Every key stored in some bucket belongs to `ks`. -/
def storedSub {V : Type} {N : Nat} (m : HashMap V N) (ks : List Nat) : Prop :=
  ∀ s (p : Nat × V), m.buckets.getD s none = some p → p.1 ∈ ks

theorem lookup_def {V : Type} {N : Nat} (m : HashMap V N) (key : Nat) :
    m.lookup key = lookupAux m.buckets N key (m.get_idx key) (m.get_idx key) N := rfl

theorem lookup_of_reach {V : Type} {N kk : Nat} (m : HashMap V N) (key : Nat) (v : V)
    (hN : N = 2 ^ kk) (hstart : m.get_idx key < N) (hr : reach m key v) :
    m.lookup key = some v := by
  subst hN
  obtain ⟨j, hj, hhit, hocc⟩ := hr
  have hhit' : m.buckets.getD ((m.get_idx key + (0 + j)) % 2 ^ kk) none = some (key, v) := by
    rw [Nat.zero_add]
    exact hhit
  have h := lookupAux_hit m.buckets kk key (m.get_idx key) hstart j 0 (2 ^ kk) v
    (by omega) (by omega) hhit'
    (fun i hi1 hi2 => hocc i (by omega))
  rw [Nat.add_zero, Nat.mod_eq_of_lt hstart] at h
  rw [lookup_def]
  exact h

theorem reach_setD {V : Type} {N : Nat} (m m' : HashMap V N) (key : Nat) (v : V)
    (s : Nat) (x : Nat × V)
    (hperm : m'.permutation = m.permutation)
    (hb : m'.buckets = m.buckets.setD s (some x))
    (hnone : m.buckets.getD s none = none)
    (hr : reach m key v) : reach m' key v := by
  obtain ⟨j, hj, hhit, hocc⟩ := hr
  have hidx : m'.get_idx key = m.get_idx key := by
    unfold HashMap.get_idx
    rw [hperm]
  have hhit' : m.buckets.getD ((m.get_idx key + j) % N) none = some (key, v) := hhit
  refine ⟨j, hj, ?_, ?_⟩
  · show m'.buckets.getD ((m'.get_idx key + j) % N) none = some (key, v)
    have hne : s ≠ (m.get_idx key + j) % N := by
      intro heq
      rw [← heq, hnone] at hhit'
      exact Option.noConfusion hhit'
    rw [hb, hidx, arrayGetD_setD_ne _ _ _ _ _ hne]
    exact hhit'
  · intro i hi
    obtain ⟨p, hp, hpk⟩ := hocc i hi
    have hp' : m.buckets.getD ((m.get_idx key + i) % N) none = some p := hp
    refine ⟨p, ?_, hpk⟩
    show m'.buckets.getD ((m'.get_idx key + i) % N) none = some p
    have hne : s ≠ (m.get_idx key + i) % N := by
      intro heq
      rw [← heq, hnone] at hp'
      exact Option.noConfusion hp'
    rw [hb, hidx, arrayGetD_setD_ne _ _ _ _ _ hne]
    exact hp'

theorem getD_mkArray_none {α : Type} (nn i : Nat) :
    (Array.mkArray nn (none : Option α)).getD i none = none := by
  by_cases hi : i < (Array.mkArray nn (none : Option α)).size
  · rw [arrayGetD_eq_getElem _ _ _ hi, Array.getElem_mkArray]
  · rw [arrayGetD_def, dif_neg hi]

theorem storedSub_new (V : Type) (N seed : Nat) :
    storedSub (HashMap.new_with_seed V N seed) [] := by
  intro s p hp
  rw [show (HashMap.new_with_seed V N seed).buckets = Array.mkArray N none from rfl,
    getD_mkArray_none] at hp
  exact Option.noConfusion hp

theorem storedSub_setD {V : Type} {N : Nat} (m m' : HashMap V N) (ks : List Nat)
    (k : Nat) (v : V) (s : Nat)
    (hb : m'.buckets = m.buckets.setD s (some (k, v)))
    (hsub : storedSub m ks) : storedSub m' (k :: ks) := by
  intro s' p hp
  rw [hb] at hp
  by_cases hss : s = s'
  · subst hss
    by_cases hsz : s < m.buckets.size
    · rw [arrayGetD_setD_self _ _ _ _ hsz] at hp
      injection hp with hp'
      rw [← hp']
      exact List.mem_cons_self _ _
    · rw [show m.buckets.setD s (some (k, v)) = m.buckets from by
        unfold Array.setD; rw [dif_neg hsz]] at hp
      exact List.mem_cons_of_mem _ (hsub _ _ hp)
  · rw [arrayGetD_setD_ne _ _ _ _ _ hss] at hp
    exact List.mem_cons_of_mem _ (hsub _ _ hp)

theorem allOk_cons {V : Type} {N : Nat} (m : HashMap V N) (k : Nat) (v : V)
    (rest : List (Nat × V)) :
    HashMap.allOk m ((k, v) :: rest) = true ↔
      (∃ w, (m.insert k v).2 = .ok w) ∧
        HashMap.allOk (m.insert k v).1 rest = true := by
  rcases hr : m.insert k v with ⟨m', r⟩
  cases r <;> simp [HashMap.allOk, hr]

theorem insert_ok_reach {V : Type} {N kk : Nat} (m : HashMap V N) (key : Nat) (v : V)
    (hN : N = 2 ^ kk) (hwf : wf m)
    (hfresh : ∀ s (p : Nat × V), m.buckets.getD s none = some p → p.1 ≠ key)
    (hok : ∃ w, (m.insert key v).2 = .ok w) :
    reach (m.insert key v).1 key v := by
  subst hN
  have hstart : m.get_idx key < 2 ^ kk := hwf.2.1 _
  rcases h : m.buckets.getD (m.get_idx key) none with _ | ⟨k0, v0⟩
  · rw [insert_eq_start_none m key v h]
    refine ⟨0, Nat.two_pow_pos kk, ?_, fun i hi => absurd hi (by omega)⟩
    show (m.buckets.setD (m.get_idx key) (some (key, v))).getD
        ((m.get_idx key + 0) % 2 ^ kk) none = some (key, v)
    rw [Nat.add_zero, Nat.mod_eq_of_lt hstart,
      arrayGetD_setD_self _ _ _ _ (by rw [hwf.1]; exact hstart)]
  · by_cases hk : k0 = key
    · exact absurd hk (hfresh _ _ h)
    · by_cases hw : ((m.get_idx key + 1) &&& (2 ^ kk - 1)) = m.get_idx key
      · obtain ⟨w, hokw⟩ := hok
        rw [insert_eq_wrap m key v k0 v0 h hk hw] at hokw
        exact absurd hokw (by simp)
      · rcases hp : probeLoop m.buckets m.entries (2 ^ kk) key v
            ((m.get_idx key + 1) &&& (2 ^ kk - 1)) (2 ^ kk) with _ | b'
        · obtain ⟨w, hokw⟩ := hok
          have hres : (m.insert key v).2 = .full := by
            rw [insert_eq_probe m key v k0 v0 h hk hw, hp]
          rw [hres] at hokw
          exact absurd hokw (by simp)
        · have hentocc : m.entries = occupied m.buckets := hwf.2.2
          rcases Nat.lt_or_ge (occupied m.buckets) (2 ^ kk) with hlt | hge
          · obtain ⟨s0, hs0, hs0none⟩ :=
              exists_none_of_occupied_lt m.buckets (by rw [hwf.1]; exact hlt)
            rw [hwf.1] at hs0
            obtain ⟨i0, hi0, hi0eq⟩ := exists_probe_index hstart hs0
            have hi0pos : 0 < i0 := by
              by_contra hz
              have hz0 : i0 = 0 := by omega
              rw [hz0, Nat.add_zero, Nat.mod_eq_of_lt hstart] at hi0eq
              rw [← hi0eq, h] at hs0none
              exact Option.noConfusion hs0none
            have hmask : ((m.get_idx key + 1) &&& (2 ^ kk - 1)) =
                (m.get_idx key + 1) % 2 ^ kk := Nat.and_pow_two_sub_one_eq_mod _ _
            have hkk1 : 1 < 2 ^ kk := by
              rcases Nat.lt_or_ge 1 (2 ^ kk) with h1 | h1
              · exact h1
              · exfalso
                apply hw
                have h2 : 2 ^ kk = 1 := by
                  have := Nat.two_pow_pos kk
                  omega
                have hz : m.get_idx key = 0 := by omega
                have h3 : 2 ^ kk - 1 = 0 := by omega
                rw [hz, h3, Nat.and_zero]
            rw [hmask] at hp
            obtain ⟨d, hd1, hd2, hd3, hd4, hd5⟩ :=
              probeLoop_pos m.buckets m.entries kk key (m.get_idx key) v hstart
                (2 ^ kk) 1 b' hkk1 (by omega)
                ⟨i0, by omega, hi0, by rw [hi0eq]; exact hs0none⟩ hp
            have hm1 : (m.insert key v).1 =
                { m with
                    buckets := m.buckets.setD ((m.get_idx key + d) % 2 ^ kk)
                      (some (key, v))
                    entries := m.entries + 1 } := by
              rw [insert_eq_probe m key v k0 v0 h hk hw, hmask, hp, hd5]
            rw [hm1]
            refine ⟨d, hd2, ?_, ?_⟩
            · show (m.buckets.setD ((m.get_idx key + d) % 2 ^ kk)
                  (some (key, v))).getD ((m.get_idx key + d) % 2 ^ kk) none =
                  some (key, v)
              exact arrayGetD_setD_self _ _ _ _
                (by rw [hwf.1]; exact Nat.mod_lt _ (Nat.two_pow_pos kk))
            · intro i hi
              by_cases hi0' : i = 0
              · refine ⟨(k0, v0), ?_, hfresh _ _ h⟩
                show (m.buckets.setD ((m.get_idx key + d) % 2 ^ kk)
                    (some (key, v))).getD ((m.get_idx key + i) % 2 ^ kk) none =
                    some (k0, v0)
                rw [hi0', Nat.add_zero, Nat.mod_eq_of_lt hstart,
                  arrayGetD_setD_ne _ _ _ _ _ (pos_ne_start hstart (by omega) hd2)]
                exact h
              · have hoccne := hd4 i (by omega) hi
                rcases hq : m.buckets.getD ((m.get_idx key + i) % 2 ^ kk) none
                  with _ | q
                · exact absurd hq hoccne
                · refine ⟨q, ?_, hfresh _ _ hq⟩
                  show (m.buckets.setD ((m.get_idx key + d) % 2 ^ kk)
                      (some (key, v))).getD ((m.get_idx key + i) % 2 ^ kk) none =
                      some q
                  have hne : (m.get_idx key + d) % 2 ^ kk ≠
                      (m.get_idx key + i) % 2 ^ kk := by
                    intro heq
                    rw [heq, hq] at hd3
                    exact Option.noConfusion hd3
                  rw [arrayGetD_setD_ne _ _ _ _ _ hne]
                  exact hq
          · have hfull : occupied m.buckets = 2 ^ kk := by
              have := occupied_le_size m.buckets
              rw [hwf.1] at this
              omega
            have hnone := probeLoop_full m.buckets m.entries key v
              ((m.get_idx key + 1) &&& (2 ^ kk - 1)) (2 ^ kk) hwf.1 hfull
              (by rw [hentocc, hfull]) (and_mask_lt _ _) (Nat.two_pow_pos kk)
            rw [hnone] at hp
            exact absurd hp (by simp)

end AtomicHashmap

/-! Sequential runs: every successfully inserted binding stays reachable
(open addressing), every inserted binding stays findable (chaining), and
the chaining collision counter counts exactly the appending inserts. -/

namespace AtomicHashmap

theorem runInserts_reach {V : Type} {N kk : Nat} (hN : N = 2 ^ kk) :
    ∀ (ops : List (Nat × V)) (m : HashMap V N) (ks : List Nat),
      wf m → storedSub m ks →
      (∀ q ∈ ops, (Prod.fst q) ∉ ks) →
      (ops.map Prod.fst).Nodup →
      HashMap.allOk m ops = true →
      ∀ key v0, (reach m key v0 ∨ (key, v0) ∈ ops) →
        reach (HashMap.runInserts m ops) key v0 := by
  intro ops
  induction ops with
  | nil =>
    intro m ks _ _ _ _ _ key v0 hd
    rcases hd with hr | hmem
    · exact hr
    · exact absurd hmem (List.not_mem_nil _)
  | cons hd rest ih =>
    obtain ⟨k, v⟩ := hd
    intro m ks hwf hsub hnotin hnd hallok key v0 hcase
    rw [allOk_cons] at hallok
    obtain ⟨hok, hrest⟩ := hallok
    have hstart : m.get_idx k < N := hwf.2.1 _
    have hknotin : k ∉ ks := hnotin (k, v) (List.mem_cons_self _ _)
    have hfresh : ∀ s (p : Nat × V), m.buckets.getD s none = some p → p.1 ≠ k := by
      intro s p hp heq
      exact hknotin (heq ▸ hsub s p hp)
    rcases insert_state m k v hN hstart with
      ⟨s, _, hnone, hb, _, _⟩ | ⟨_, _, hnotok⟩
    · have hperm := insert_permutation m k v
      have hwf' : wf (m.insert k v).1 := wf_insert m k v hN hwf
      have hsub' : storedSub (m.insert k v).1 (k :: ks) :=
        storedSub_setD m _ ks k v s hb hsub
      have hnotin' : ∀ q ∈ rest, (Prod.fst q) ∉ (k :: ks) := by
        intro q hq hmem
        rcases List.mem_cons.mp hmem with heq | hmem'
        · have hm : q.1 ∈ rest.map Prod.fst := List.mem_map_of_mem _ hq
          rw [heq] at hm
          rw [List.map_cons] at hnd
          exact (List.nodup_cons.mp hnd).1 hm
        · exact hnotin q (List.mem_cons_of_mem _ hq) hmem'
      have hnd' : (rest.map Prod.fst).Nodup := by
        rw [List.map_cons] at hnd
        exact (List.nodup_cons.mp hnd).2
      show reach (HashMap.runInserts (m.insert k v).1 rest) key v0
      apply ih (m.insert k v).1 (k :: ks) hwf' hsub' hnotin' hnd' hrest key v0
      rcases hcase with hr | hmem
      · exact Or.inl (reach_setD m _ key v0 s (k, v) hperm hb hnone hr)
      · rcases List.mem_cons.mp hmem with heq | hmem'
        · refine Or.inl ?_
          have hk : key = k := congrArg Prod.fst heq
          have hv : v0 = v := congrArg Prod.snd heq
          rw [hk, hv]
          exact insert_ok_reach m k v hN hwf hfresh hok
        · exact Or.inr hmem'
    · obtain ⟨w, hw⟩ := hok
      exact absurd hw (hnotok w)

theorem insert_full_of_full {V : Type} {N kk : Nat} (m : HashMap V N) (key : Nat)
    (v : V) (k0 : Nat) (v0 : V)
    (hN : N = 2 ^ kk) (hwf : wf m) (hfull : m.entries = N)
    (hocc : m.buckets.getD (m.get_idx key) none = some (k0, v0)) (hne : k0 ≠ key) :
    m.insert key v = ({ m with leaked := m.leaked + 1 }, .full) := by
  subst hN
  by_cases hw : ((m.get_idx key + 1) &&& (2 ^ kk - 1)) = m.get_idx key
  · exact insert_eq_wrap m key v k0 v0 hocc hne hw
  · rw [insert_eq_probe m key v k0 v0 hocc hne hw]
    have hoccfull : occupied m.buckets = 2 ^ kk := by
      rw [← hwf.2.2]
      exact hfull
    rw [probeLoop_full m.buckets m.entries key v _ _ hwf.1 hoccfull hfull
      (and_mask_lt _ _) (Nat.two_pow_pos kk)]

end AtomicHashmap

namespace AtomHash

theorem chAllOk_cons {V : Type} {N : Nat} (m : HashMap V N) (k : Nat) (v : V)
    (rest : List (Nat × V)) :
    HashMap.allOk m ((k, v) :: rest) = true ↔
      (∃ w, (m.insert k v).2 = .ok w) ∧
        HashMap.allOk (m.insert k v).1 rest = true := by
  rcases hr : m.insert k v with ⟨m', r⟩
  cases r <;> simp [HashMap.allOk, hr]

theorem ch_runInserts_lookup {V : Type} {N kk : Nat} (hN : N = 2 ^ kk) :
    ∀ (ops : List (Nat × V)) (m : HashMap V N),
      m.buckets.size = N →
      HashMap.allOk m ops = true →
      ∀ key v0, (m.lookup key = some v0 ∨ (key, v0) ∈ ops) →
        (HashMap.runInserts m ops).lookup key = some v0 := by
  intro ops
  induction ops with
  | nil =>
    intro m _ _ key v0 hd
    rcases hd with hr | hmem
    · exact hr
    · exact absurd hmem (List.not_mem_nil _)
  | cons hd rest ih =>
    obtain ⟨k, v⟩ := hd
    intro m hsz hallok key v0 hcase
    rw [chAllOk_cons] at hallok
    obtain ⟨hok, hrest⟩ := hallok
    have hidxk : m.get_idx k < m.buckets.size := by
      show k &&& (N - 1) < m.buckets.size
      rw [hsz, hN]
      exact and_mask_lt k kk
    rcases insert_cases m k v with
      ⟨hfind, hm1, _⟩ | ⟨v', _, _, hres⟩
    · have hsz' : (m.insert k v).1.buckets.size = N := by
        rw [hm1]
        show (m.buckets.setD (m.get_idx k)
          ((m.buckets.getD (m.get_idx k) []) ++ [(k, v)])).size = N
        rw [Array.size_setD, hsz]
      show (HashMap.runInserts (m.insert k v).1 rest).lookup key = some v0
      apply ih (m.insert k v).1 hsz' hrest key v0
      rcases hcase with hr | hmem
      · left
        show findEntry ((m.insert k v).1.buckets.getD
          ((m.insert k v).1.get_idx key) []) key = some v0
        rw [hm1]
        by_cases hik : (key &&& (N - 1)) = (k &&& (N - 1))
        · show findEntry ((m.buckets.setD (m.get_idx k)
            ((m.buckets.getD (m.get_idx k) []) ++ [(k, v)])).getD
            (key &&& (N - 1)) []) key = some v0
          rw [show (key &&& (N - 1)) = m.get_idx k from hik,
            arrayGetD_setD_self _ _ _ _ hidxk]
          have hlk : findEntry (m.buckets.getD (m.get_idx k) []) key = some v0 := by
            have := hr
            rw [HashMap.lookup] at this
            rw [show m.get_idx k = m.get_idx key from hik.symm]
            exact this
          exact findEntry_append_some _ _ _ _ hlk
        · show findEntry ((m.buckets.setD (m.get_idx k)
            ((m.buckets.getD (m.get_idx k) []) ++ [(k, v)])).getD
            (key &&& (N - 1)) []) key = some v0
          rw [arrayGetD_setD_ne m.buckets (m.get_idx k) (key &&& (N - 1))
            ((m.buckets.getD (m.get_idx k) []) ++ [(k, v)]) []
            (fun h => hik h.symm)]
          exact hr
      · rcases List.mem_cons.mp hmem with heq | hmem'
        · left
          have hk : key = k := congrArg Prod.fst heq
          have hv : v0 = v := congrArg Prod.snd heq
          subst hk
          subst hv
          show findEntry ((m.insert key v0).1.buckets.getD
            ((m.insert key v0).1.get_idx key) []) key = some v0
          rw [hm1]
          show findEntry ((m.buckets.setD (m.get_idx key)
            ((m.buckets.getD (m.get_idx key) []) ++ [(key, v0)])).getD
            (key &&& (N - 1)) []) key = some v0
          rw [show (key &&& (N - 1)) = m.get_idx key from rfl,
            arrayGetD_setD_self _ _ _ _ hidxk,
            findEntry_append_none _ _ _ hfind, findEntry_cons, if_pos rfl]
        · exact Or.inr hmem'
    · obtain ⟨w, hw⟩ := hok
      rw [hres] at hw
      exact absurd hw (by simp)

theorem ch_collisions_run {V : Type} {N : Nat} :
    ∀ (ops : List (Nat × V)) (m : HashMap V N),
      (HashMap.runInserts m ops).collisions =
        m.collisions + appendCollisionCount m ops := by
  intro ops
  induction ops with
  | nil =>
    intro m
    rw [HashMap.runInserts, appendCollisionCount]
    omega
  | cons hd rest ih =>
    obtain ⟨k, v⟩ := hd
    intro m
    rw [HashMap.runInserts, ih, appendCollisionCount]
    have hstep : (m.insert k v).1.collisions =
        m.collisions + (if !(m.buckets.getD (m.get_idx k) []).isEmpty &&
          (findEntry (m.buckets.getD (m.get_idx k) []) k).isNone then 1 else 0) := by
      rcases insert_cases m k v with ⟨hfind, hm1, _⟩ | ⟨v', hfind, hm1, _⟩
      · rw [hm1, hfind]
        simp only [Option.isNone_none, Bool.and_true]
        rcases m.buckets.getD (m.get_idx k) [] with _ | ⟨hd2, tl2⟩ <;> simp
      · rw [hm1, hfind]
        simp
    omega

end AtomHash

/-! The claims. -/

/-- C1: for every sequence of sequential insert calls with distinct keys,
each returning Ok (and, for the open-addressing variant, with fewer keys
than the capacity N), a subsequent lookup(key) on either variant returns
Some of the value that was inserted for that key. -/
theorem C1_no_lost_inserts {V : Type} (kk seed : Nat) (ops : List (Nat × V))
    (key : Nat) (v : V)
    (hnd : (ops.map Prod.fst).Nodup) (hmem : (key, v) ∈ ops) :
    (ops.length < 2 ^ kk →
      AtomicHashmap.HashMap.allOk
        (AtomicHashmap.HashMap.new_with_seed V (2 ^ kk) seed) ops = true →
      (AtomicHashmap.HashMap.runInserts
        (AtomicHashmap.HashMap.new_with_seed V (2 ^ kk) seed) ops).lookup key
        = some v) ∧
    (AtomHash.HashMap.allOk (AtomHash.HashMap.new V (2 ^ kk)) ops = true →
      (AtomHash.HashMap.runInserts (AtomHash.HashMap.new V (2 ^ kk)) ops).lookup key
        = some v) := by
  constructor
  · intro _ hallok
    have hwf0 := AtomicHashmap.wf_new V (2 ^ kk) seed (Nat.two_pow_pos kk)
    have hreach := AtomicHashmap.runInserts_reach rfl ops _ []
      hwf0 (AtomicHashmap.storedSub_new V (2 ^ kk) seed)
      (fun q _ hq => absurd hq (List.not_mem_nil _))
      hnd hallok key v (Or.inr hmem)
    have hwfrun := AtomicHashmap.runInserts_wf rfl ops _ hwf0
    exact AtomicHashmap.lookup_of_reach _ key v rfl (hwfrun.2.1 _) hreach
  · intro hallok
    exact AtomHash.ch_runInserts_lookup rfl ops _
      (by rw [show (AtomHash.HashMap.new V (2 ^ kk)).buckets =
        Array.mkArray (2 ^ kk) [] from rfl, Array.size_mkArray])
      hallok key v (Or.inr hmem)

theorem C1_no_lost_inserts_witness :
    (AtomicHashmap.HashMap.runInserts
      (AtomicHashmap.HashMap.new_with_seed Nat (2 ^ 2) 1) [(1, 10), (2, 20)]).lookup 1
      = some 10 ∧
    (AtomHash.HashMap.runInserts
      (AtomHash.HashMap.new Nat (2 ^ 2)) [(1, 10), (2, 20)]).lookup 1 = some 10 := by
  have h := C1_no_lost_inserts (V := Nat) 2 1 [(1, 10), (2, 20)] 1 10
    (by decide) (by decide)
  exact ⟨h.1 (by decide) (by decide), h.2 (by decide)⟩

/-- C2: for the open-addressing variant, in a sequential execution, after
any run of inserts `entries()` never exceeds N, and once the entry counter
has reached N an insert of a key whose starting bucket holds a different
key fails fast with `HashMapFull`, leaving `entries()` unchanged. -/
theorem C2_capacity_exhaustion {V : Type} (kk seed : Nat) (ops : List (Nat × V))
    (key : Nat) (v : V) (k0 : Nat) (v0 : V) :
    (AtomicHashmap.HashMap.runInserts
      (AtomicHashmap.HashMap.new_with_seed V (2 ^ kk) seed) ops).entries ≤ 2 ^ kk ∧
    ((AtomicHashmap.HashMap.runInserts
        (AtomicHashmap.HashMap.new_with_seed V (2 ^ kk) seed) ops).entries = 2 ^ kk →
      (AtomicHashmap.HashMap.runInserts
        (AtomicHashmap.HashMap.new_with_seed V (2 ^ kk) seed) ops).buckets.getD
        ((AtomicHashmap.HashMap.runInserts
          (AtomicHashmap.HashMap.new_with_seed V (2 ^ kk) seed) ops).get_idx key) none
        = some (k0, v0) →
      k0 ≠ key →
      ((AtomicHashmap.HashMap.runInserts
        (AtomicHashmap.HashMap.new_with_seed V (2 ^ kk) seed) ops).insert key v).2
        = InsertResult.full ∧
      ((AtomicHashmap.HashMap.runInserts
        (AtomicHashmap.HashMap.new_with_seed V (2 ^ kk) seed) ops).insert key v).1.entries
        = (AtomicHashmap.HashMap.runInserts
          (AtomicHashmap.HashMap.new_with_seed V (2 ^ kk) seed) ops).entries) := by
  have hwf := AtomicHashmap.runInserts_wf rfl ops _
    (AtomicHashmap.wf_new V (2 ^ kk) seed (Nat.two_pow_pos kk))
  constructor
  · rw [hwf.2.2]
    have h := AtomicHashmap.occupied_le_size
      (AtomicHashmap.HashMap.runInserts
        (AtomicHashmap.HashMap.new_with_seed V (2 ^ kk) seed) ops).buckets
    rw [hwf.1] at h
    exact h
  · intro hfull hocc hne
    rw [AtomicHashmap.insert_full_of_full _ key v k0 v0 rfl hwf hfull hocc hne]
    exact ⟨rfl, rfl⟩

theorem C2_capacity_exhaustion_witness :
    ((AtomicHashmap.HashMap.runInserts
      (AtomicHashmap.HashMap.new_with_seed Nat (2 ^ 1) 1) [(0, 1), (1, 2)]).insert 2 99).2
      = InsertResult.full ∧
    (AtomicHashmap.HashMap.runInserts
      (AtomicHashmap.HashMap.new_with_seed Nat (2 ^ 1) 1) [(0, 1), (1, 2)]).entries
      ≤ 2 ^ 1 := by
  have h := C2_capacity_exhaustion (V := Nat) 1 1 [(0, 1), (1, 2)] 2 99 0 1
  exact ⟨(h.2 (by decide) (by decide) (by decide)).1, h.1⟩

/-- C3 counterexample: on the open-addressing variant, with N = 8 and
seed 1, after inserting key 8 the table does not contain key 0; inserting
key 0 twice then returns Ok both times (the second insert duplicates the
key instead of returning ExistentEntry) and bumps `entries()` from 2 to 3,
because the probe loop never compares keys of occupied slots. -/
theorem C3_counterexample_duplicate_key :
    (AtomicHashmap.HashMap.runInserts
      (AtomicHashmap.HashMap.new_with_seed Nat 8 1) [(8, 50)]).lookup 0 = none ∧
    ((AtomicHashmap.HashMap.runInserts
      (AtomicHashmap.HashMap.new_with_seed Nat 8 1) [(8, 50)]).insert 0 10).2
      = InsertResult.ok 10 ∧
    (((AtomicHashmap.HashMap.runInserts
      (AtomicHashmap.HashMap.new_with_seed Nat 8 1) [(8, 50)]).insert 0 10).1.insert
        0 20).2 = InsertResult.ok 20 ∧
    (((AtomicHashmap.HashMap.runInserts
      (AtomicHashmap.HashMap.new_with_seed Nat 8 1) [(8, 50)]).insert 0 10).1.insert
        0 20).1.entries = 3 ∧
    ((AtomicHashmap.HashMap.runInserts
      (AtomicHashmap.HashMap.new_with_seed Nat 8 1) [(8, 50)]).insert 0 10).1.entries
      = 2 := by decide

/-- C3 (amended): inserting k twice sequentially, starting from a table not
containing k, returns Ok then ExistentEntry borrowing the first value, and
leaves `entries()` unchanged — unconditionally on the chaining variant, and
on the open-addressing variant provided the first insert lands in k's
starting bucket (the bucket is empty before the first insert). -/
theorem C3_idempotent_rejection_amended (V : Type) (N kk : Nat) (hN : N = 2 ^ kk) :
    (∀ (m : AtomHash.HashMap V N) (key : Nat) (v1 v2 : V),
      m.buckets.size = N → m.lookup key = none →
      (m.insert key v1).2 = InsertResult.ok v1 ∧
      ((m.insert key v1).1.insert key v2).2 = InsertResult.existent v1 ∧
      ((m.insert key v1).1.insert key v2).1.entries = (m.insert key v1).1.entries) ∧
    (∀ (m : AtomicHashmap.HashMap V N) (key : Nat) (v1 v2 : V),
      m.buckets.size = N → m.get_idx key < N →
      m.buckets.getD (m.get_idx key) none = none →
      (m.insert key v1).2 = InsertResult.ok v1 ∧
      ((m.insert key v1).1.insert key v2).2 = InsertResult.existent v1 ∧
      ((m.insert key v1).1.insert key v2).1.entries = (m.insert key v1).1.entries) := by
  constructor
  · intro m key v1 v2 hsz hlk
    have hidx : m.get_idx key < m.buckets.size := by
      show key &&& (N - 1) < m.buckets.size
      rw [hsz, hN]
      exact and_mask_lt key kk
    have hlk' : AtomHash.findEntry (m.buckets.getD (m.get_idx key) []) key = none := hlk
    rcases AtomHash.insert_cases m key v1 with ⟨_, hm1, hres⟩ | ⟨v', hfind, _, _⟩
    · have hb2 : (m.insert key v1).1.buckets.getD ((m.insert key v1).1.get_idx key) []
          = (m.buckets.getD (m.get_idx key) []) ++ [(key, v1)] := by
        rw [hm1]
        show (m.buckets.setD (m.get_idx key)
          ((m.buckets.getD (m.get_idx key) []) ++ [(key, v1)])).getD (m.get_idx key) []
          = (m.buckets.getD (m.get_idx key) []) ++ [(key, v1)]
        exact arrayGetD_setD_self _ _ _ _ hidx
      have hfe2 : AtomHash.findEntry ((m.insert key v1).1.buckets.getD
          ((m.insert key v1).1.get_idx key) []) key = some v1 := by
        rw [hb2, AtomHash.findEntry_append_none _ _ _ hlk', AtomHash.findEntry_cons,
          if_pos rfl]
      rcases AtomHash.insert_cases (m.insert key v1).1 key v2 with
        ⟨hfind2, _, _⟩ | ⟨v', hfind2, hm2, hres2⟩
      · rw [hfe2] at hfind2
        exact absurd hfind2 (by simp)
      · have hv' : v' = v1 := by
          rw [hfe2] at hfind2
          injection hfind2 with h'
          exact h'.symm
        exact ⟨hres, by rw [hres2, hv'], by rw [hm2]⟩
    · rw [hfind] at hlk'
      exact Option.noConfusion hlk'
  · intro m key v1 v2 hsz hstart hnone
    have h1 := AtomicHashmap.insert_eq_start_none m key v1 hnone
    have hh : ((m.insert key v1).1).buckets.getD
        (((m.insert key v1).1).get_idx key) none = some (key, v1) := by
      rw [h1]
      show (m.buckets.setD (m.get_idx key) (some (key, v1))).getD
        (m.get_idx key) none = some (key, v1)
      exact arrayGetD_setD_self _ _ _ _ (by rw [hsz]; exact hstart)
    refine ⟨by rw [h1], ?_, ?_⟩
    · rw [AtomicHashmap.insert_eq_head_match _ key v2 key v1 hh rfl]
    · rw [AtomicHashmap.insert_eq_head_match _ key v2 key v1 hh rfl]

theorem C3_idempotent_rejection_amended_witness :
    ((AtomHash.HashMap.new Nat 8).insert 5 1).2 = InsertResult.ok 1 ∧
    (((AtomHash.HashMap.new Nat 8).insert 5 1).1.insert 5 2).2
      = InsertResult.existent 1 ∧
    ((AtomicHashmap.HashMap.new_with_seed Nat 8 1).insert 5 1).2
      = InsertResult.ok 1 ∧
    (((AtomicHashmap.HashMap.new_with_seed Nat 8 1).insert 5 1).1.insert 5 2).2
      = InsertResult.existent 1 := by
  have h := C3_idempotent_rejection_amended Nat 8 3 (by decide)
  have hch := h.1 (AtomHash.HashMap.new Nat 8) 5 1 2 (by decide) (by decide)
  have hoa := h.2 (AtomicHashmap.HashMap.new_with_seed Nat 8 1) 5 1 2
    (by decide) (by decide) (by decide)
  exact ⟨hch.1, hch.2.1, hoa.1, hoa.2.1⟩

/-- C4: the constructor's shuffle is claimed to be Fisher–Yates drawing
`j = next_bounded(i+1)` with `j` in `[0, i]`; the code draws
`j = get_random(i)`, i.e. `rand() % i` with `j` in `[0, i-1]` (Sattolo's
algorithm).  At `N = 2`, seed 1, the raw draw is odd, so the claimed
Fisher–Yates shuffle leaves the identity `#[0, 1]` while the code always
swaps and produces `#[1, 0]`. -/
theorem C4_scramble_draw_mismatch :
    (AtomicHashmap.scramble (Rng.new 1) (Array.range 2)).2 = #[1, 0] ∧
    (AtomicHashmap.fisherYates (Rng.new 1) (Array.range 2)).2 = #[0, 1] ∧
    (Rng.new 1).rand.2 % 2 = 1 ∧ (Rng.new 1).rand.2 % 1 = 0 := by
  refine ⟨rfl, rfl, by decide, by decide⟩

/-- C5: inserting a key already present at its starting bucket of the
open-addressing table returns `ExistentEntry` borrowing the occupant's
value and leaves buckets, entry count and permutation untouched, but the
freshly allocated Entry is leaked, not freed: the error path has no
`Box::from_raw`, and teardown only frees bucket-reachable entries. -/
theorem C5_duplicate_insert_leaks :
    ((((AtomicHashmap.HashMap.new_with_seed Nat 8 1).insert 0 10).1.insert 0 20).2
      = InsertResult.existent 10) ∧
    ((((AtomicHashmap.HashMap.new_with_seed Nat 8 1).insert 0 10).1.insert 0 20).1.buckets
      = ((AtomicHashmap.HashMap.new_with_seed Nat 8 1).insert 0 10).1.buckets) ∧
    ((((AtomicHashmap.HashMap.new_with_seed Nat 8 1).insert 0 10).1.insert 0 20).1.entries
      = ((AtomicHashmap.HashMap.new_with_seed Nat 8 1).insert 0 10).1.entries) ∧
    ((((AtomicHashmap.HashMap.new_with_seed Nat 8 1).insert 0 10).1.insert 0 20).1.permutation
      = ((AtomicHashmap.HashMap.new_with_seed Nat 8 1).insert 0 10).1.permutation) ∧
    ((((AtomicHashmap.HashMap.new_with_seed Nat 8 1).insert 0 10).1.insert 0 20).1.leaked
      = ((AtomicHashmap.HashMap.new_with_seed Nat 8 1).insert 0 10).1.leaked + 1) ∧
    ((AtomicHashmap.HashMap.new_with_seed Nat 8 1).insert 0 10).1.leaked = 0 := by
  decide

/-- C6 counterexample: on the chaining variant with N = 8, inserting key 0,
then key 8 (collides with 0's bucket, appended), then key 8 again (walks
past the occupied head but finds its key and is rejected), the counter
reads 1, while the claim's reading — every insert whose starting bucket is
occupied by a different key — counts 2. -/
theorem C6_counterexample_rejected_walk :
    (AtomHash.HashMap.runInserts (AtomHash.HashMap.new Nat 8)
      [(0, 10), (8, 20), (8, 30)]).collisions = 1 ∧
    AtomHash.claimedCollisionCount (AtomHash.HashMap.new Nat 8)
      [(0, 10), (8, 20), (8, 30)] = 2 ∧
    (1 : Nat) ≠ 2 := by
  decide

/-- C6 (amended): in a sequential execution, `collisions()` counts the
insert calls that appended a new entry past a non-null bucket head, i.e.
those whose starting bucket was non-empty and did not yet contain the key;
rejected duplicates do not contribute, whatever their bucket head holds. -/
theorem C6_collisions_amended {V : Type} (N : Nat) (ops : List (Nat × V)) :
    (AtomHash.HashMap.runInserts (AtomHash.HashMap.new V N) ops).collisions =
      AtomHash.appendCollisionCount (AtomHash.HashMap.new V N) ops := by
  rw [AtomHash.ch_collisions_run]
  show 0 + AtomHash.appendCollisionCount (AtomHash.HashMap.new V N) ops = _
  rw [Nat.zero_add]

/-- C7: open-addressing lookup probes forward linearly from the permuted
starting index: it returns the stored value when a bucket holding the key
is reached first, `None` as soon as it reaches a null bucket with only
mismatching occupants before it, and `None` when every bucket of a full
wrap is occupied by mismatching keys. -/
theorem C7_lookup_probe {V : Type} {N : Nat} (kk : Nat) (m : AtomicHashmap.HashMap V N)
    (key : Nat) (hN : N = 2 ^ kk) (hstart : m.get_idx key < N) :
    (∀ v j, j < N → m.slotAt key j = some (key, v) →
      (∀ i, i < j → ∃ p : Nat × V, m.slotAt key i = some p ∧ p.1 ≠ key) →
      m.lookup key = some v) ∧
    (∀ j, j < N → m.slotAt key j = none →
      (∀ i, i < j → ∃ p : Nat × V, m.slotAt key i = some p ∧ p.1 ≠ key) →
      m.lookup key = none) ∧
    ((∀ j, j < N → ∃ p : Nat × V, m.slotAt key j = some p ∧ p.1 ≠ key) →
      m.lookup key = none) := by
  subst hN
  refine ⟨?_, ?_, ?_⟩
  · intro v j hj hhit hocc
    exact AtomicHashmap.lookup_of_reach m key v rfl hstart ⟨j, hj, hhit, hocc⟩
  · intro j hj hnull hocc
    have hnull' : m.buckets.getD ((m.get_idx key + (0 + j)) % 2 ^ kk) none = none := by
      rw [Nat.zero_add]
      exact hnull
    have h := AtomicHashmap.lookupAux_null m.buckets kk key (m.get_idx key) hstart
      j 0 (2 ^ kk) (by omega) (by omega) hnull'
      (fun i h1 h2 => hocc i (by omega))
    rw [Nat.add_zero, Nat.mod_eq_of_lt hstart] at h
    rw [AtomicHashmap.lookup_def]
    exact h
  · intro hocc
    have h := AtomicHashmap.lookupAux_wrap m.buckets kk key (m.get_idx key) hstart
      (2 ^ kk) 0 (Nat.two_pow_pos kk) (by omega)
      (fun i _ h2 => hocc i h2)
    rw [Nat.add_zero, Nat.mod_eq_of_lt hstart] at h
    rw [AtomicHashmap.lookup_def]
    exact h

theorem C7_lookup_probe_witness :
    (AtomicHashmap.HashMap.mk #[0, 1, 2, 3] 1 #[some (0, 5), none, none, none]
      0 : AtomicHashmap.HashMap Nat 4).lookup 0 = some 5 ∧
    (AtomicHashmap.HashMap.mk #[0, 1, 2, 3] 1 #[some (0, 5), none, none, none]
      0 : AtomicHashmap.HashMap Nat 4).lookup 4 = none ∧
    (AtomicHashmap.HashMap.mk #[0, 1, 2, 3] 4
      #[some (1, 9), some (2, 9), some (3, 9), some (5, 9)]
      0 : AtomicHashmap.HashMap Nat 4).lookup 0 = none := by
  have h1 := C7_lookup_probe 2
    (AtomicHashmap.HashMap.mk #[0, 1, 2, 3] 1 #[some (0, 5), none, none, none]
      0 : AtomicHashmap.HashMap Nat 4) 0 (by decide) (by decide)
  have h2 := C7_lookup_probe 2
    (AtomicHashmap.HashMap.mk #[0, 1, 2, 3] 1 #[some (0, 5), none, none, none]
      0 : AtomicHashmap.HashMap Nat 4) 4 (by decide) (by decide)
  have h3 := C7_lookup_probe 2
    (AtomicHashmap.HashMap.mk #[0, 1, 2, 3] 4
      #[some (1, 9), some (2, 9), some (3, 9), some (5, 9)]
      0 : AtomicHashmap.HashMap Nat 4) 0 (by decide) (by decide)
  refine ⟨h1.1 5 0 (by decide) (by decide) (by decide), ?_, ?_⟩
  · refine h2.2.1 1 (by decide) (by decide) ?_
    intro i hi
    refine ⟨(0, 5), ?_, by decide⟩
    have hi0 : i = 0 := by omega
    rw [hi0]
    decide
  · refine h3.2.2 ?_
    intro j hj
    have : j = 0 ∨ j = 1 ∨ j = 2 ∨ j = 3 := by omega
    rcases this with rfl | rfl | rfl | rfl
    · exact ⟨(1, 9), by decide, by decide⟩
    · exact ⟨(2, 9), by decide, by decide⟩
    · exact ⟨(3, 9), by decide, by decide⟩
    · exact ⟨(5, 9), by decide, by decide⟩

/-- C8: for every capacity 2^kk and every seed, the permutation array of a
freshly constructed open-addressing table is a bijection on [0, N) — its
entries are a permutation of `0, …, N-1` — and no sequence of inserts ever
modifies it. -/
theorem C8_permutation_bijection (V : Type) (kk seed : Nat) :
    ((AtomicHashmap.HashMap.new_with_seed V (2 ^ kk) seed).permutation.toList).Perm
      (List.range (2 ^ kk)) ∧
    ∀ ops : List (Nat × V),
      (AtomicHashmap.HashMap.runInserts
        (AtomicHashmap.HashMap.new_with_seed V (2 ^ kk) seed) ops).permutation =
      (AtomicHashmap.HashMap.new_with_seed V (2 ^ kk) seed).permutation := by
  constructor
  · exact AtomicHashmap.scramble_range_perm seed (2 ^ kk)
  · intro ops
    exact AtomicHashmap.runInserts_permutation ops _

/-- C9: the chaining variant's insert never returns HashMapFull: for every
table state, key and value the result is Ok or ExistentEntry. -/
theorem C9_chaining_never_full {V : Type} {N : Nat} (m : AtomHash.HashMap V N)
    (key : Nat) (v : V) : (m.insert key v).2 ≠ InsertResult.full := by
  rcases AtomHash.insert_cases m key v with ⟨_, _, hres⟩ | ⟨v', _, _, hres⟩ <;>
    rw [hres] <;> simp

/-- C10: `Rng::get_random(top)` requires `top > 0`: it then returns the
next raw xorshift output reduced modulo `top`, hence a value strictly less
than `top`; for `top = 0` the remainder is a division by zero and the call
does not return normally (modelled as `none`). -/
theorem C10_get_random_bound (r : Rng) (top : Nat) :
    (0 < top →
      r.get_random top = some ((r.rand).1, (r.rand).2 % top) ∧
        (r.rand).2 % top < top) ∧
    (top = 0 → r.get_random top = none) := by
  constructor
  · intro h
    constructor
    · unfold Rng.get_random
      rw [if_neg (by omega)]
    · exact Nat.mod_lt _ h
  · intro h
    unfold Rng.get_random
    rw [if_pos h]

theorem C10_get_random_bound_witness :
    (Rng.new 5).get_random 3 = some (((Rng.new 5).rand).1, ((Rng.new 5).rand).2 % 3) ∧
    ((Rng.new 5).rand).2 % 3 < 3 ∧ (Rng.new 5).get_random 0 = none := by
  have h := C10_get_random_bound (Rng.new 5) 3
  have h0 := C10_get_random_bound (Rng.new 5) 0
  exact ⟨(h.1 (by decide)).1, (h.1 (by decide)).2, h0.2 rfl⟩
